import Mathlib

/-!
Verification of the DFA table-filling minimizer in `tarea1.py`.

The embedding is a direct shallow translation of the three core functions:
`validar_entrada`, `crear_tabla_distinguibilidad` and
`encontrar_pares_equivalentes`.  Python's in-place loops become explicit
recursion threading the table; the unbounded `while cambiado` loop is run
with fuel `estados * estados + 1`, which is proved sufficient (the loop
reaches its fixed point within `pairs + 1` passes).  Machine integers are
`Int` where the source checks for negativity (the validator) and `Nat`
where the source only ever uses validated indices (the algorithm).
-/

namespace Tarea1

/-- A distinguishability table: a list of boolean rows, as in the Python
source (`tabla = [[False ...] ...]`). -/
abbrev Tabla := List (List Bool)

/-- Reading `tabla[i][j]`, total version: out-of-range reads give `false`.
The checked (exception-aware) version is `tgetE` below. -/
def tget (t : Tabla) (i j : Nat) : Bool := (t.getD i []).getD j false

/-- Writing `tabla[i][j] = b`, total version: out-of-range writes are
dropped.  The checked version is `tsetE` below. -/
def tset (t : Tabla) (i j : Nat) (b : Bool) : Tabla :=
  t.set i ((t.getD i []).set j b)

/-- The pair iteration space of the source's nested loops
`for i in range(estados): for j in range(i+1, estados)`, in scan order. -/
def paresLista (estados : Nat) : List (Nat × Nat) :=
  (List.range estados).bind fun i =>
    (List.range' (i + 1) (estados - (i + 1))).map fun j => (i, j)

/-- `transiciones[i]`, total version (out of range gives `[]`). -/
def filaDe (trans : List (List Nat)) (i : Nat) : List Nat := trans.getD i []

/-- Membership test `s in estados_finales` (Python list membership). -/
def esFinal (finales : List Nat) (s : Nat) : Bool := finales.contains s

/-- One step of the base-case marking loop: mark the pair if its states
differ in finality
(`if (i in estados_finales) != (j in estados_finales): tabla[i][j] = True`). -/
def marcaBase (finales : List Nat) (t : Tabla) (ij : Nat × Nat) : Tabla :=
  if esFinal finales ij.1 != esFinal finales ij.2 then
    tset t ij.1 ij.2 true
  else t

/-- The base-case marking loop: starting from the all-`False` table, mark
every pair whose two states differ in finality. -/
def tablaInicial (estados : Nat) (finales : List Nat) : Tabla :=
  (paresLista estados).foldl (marcaBase finales)
    (List.replicate estados (List.replicate estados false))

/-- The inner symbol loop of the propagation phase:
`for simbolo in range(len(transiciones[i]))`, skipping symbols missing from
row `j` (`continue`), swapping the two destinations into triangular order,
and stopping at the first marked destination pair (`break`).  `fI` is the
not-yet-scanned suffix of row `i` and `k` the current symbol index. -/
def buscaSimbolo (fJ : List Nat) (t : Tabla) : List Nat → Nat → Bool
  | [], _ => false
  | p :: resto, k =>
    if k < fJ.length then
      let q := fJ.getD k 0
      (tget t (min p q) (max p q)) || buscaSimbolo fJ t resto (k + 1)
    else buscaSimbolo fJ t resto (k + 1)

/-- The body of the propagation loop for one pair `(i, j)`: if the pair is
unmarked and some common symbol leads to a marked pair, mark it and report
a change. -/
def procesaPar (trans : List (List Nat)) (t : Tabla) (i j : Nat) :
    Tabla × Bool :=
  if tget t i j then (t, false)
  else if buscaSimbolo (filaDe trans j) t (filaDe trans i) 0 then
    (tset t i j true, true)
  else (t, false)

/-- One full pass of the propagation loop over a pair list, threading the
table left to right (the source mutates `tabla` in place, so marks made
earlier in a pass are visible later in the same pass).  Returns the new
table and the `cambiado` flag. -/
def pasadaAux (trans : List (List Nat)) :
    List (Nat × Nat) → Tabla → Tabla × Bool
  | [], t => (t, false)
  | ij :: resto, t =>
    let r := procesaPar trans t ij.1 ij.2
    let s := pasadaAux trans resto r.1
    (s.1, r.2 || s.2)

/-- The `while cambiado` loop, with explicit fuel; returns the final table
and the number of passes executed (the source's `iteracion` counter).
Fuel `estados * estados + 1` is proved sufficient below. -/
def buclePropagacion (trans : List (List Nat)) (pares : List (Nat × Nat)) :
    Nat → Tabla → Tabla × Nat
  | 0, t => (t, 0)
  | fuel + 1, t =>
    let r := pasadaAux trans pares t
    if r.2 then
      let s := buclePropagacion trans pares fuel r.1
      (s.1, s.2 + 1)
    else (r.1, 1)

/-- `crear_tabla_distinguibilidad`: base marking followed by fixed-point
propagation. -/
def crear_tabla_distinguibilidad (estados : Nat) (finales : List Nat)
    (trans : List (List Nat)) : Tabla :=
  (buclePropagacion trans (paresLista estados) (estados * estados + 1)
    (tablaInicial estados finales)).1

/-- The number of passes (`iteracion`) the propagation loop of
`crear_tabla_distinguibilidad` performs, including the final pass that
makes no new mark. -/
def cuentaPasadas (estados : Nat) (finales : List Nat)
    (trans : List (List Nat)) : Nat :=
  (buclePropagacion trans (paresLista estados) (estados * estados + 1)
    (tablaInicial estados finales)).2

/-- `encontrar_pares_equivalentes`: collect, in scan order, every pair
`(i, j)` with `i < j` not marked in the table. -/
def encontrar_pares_equivalentes (estados : Nat) (tabla : Tabla) :
    List (Nat × Nat) :=
  (paresLista estados).filter fun ij => !(tget tabla ij.1 ij.2)

/-- `validar_entrada`, translated over Python's signed integers: the four
structural checks, in source order (the Boolean result of the
early-returning loops equals these `any` tests). -/
def validar_entrada (estados : Int) (estados_finales : List Int)
    (transiciones : List (List Int)) : Bool :=
  if estados ≤ 0 then false
  else if estados_finales.any (fun e => e < 0 || e ≥ estados) then false
  else if (transiciones.length : Int) ≠ estados then false
  else if transiciones.any
      (fun fila => fila.any (fun d => d < 0 || d ≥ estados)) then false
  else true

/-- The validation precondition on the algorithm's (index-typed) side:
positive state count, final states and transition targets in range, one
transition row per state.  Row lengths are *not* constrained. -/
def EntradaValida (estados : Nat) (finales : List Nat)
    (trans : List (List Nat)) : Prop :=
  0 < estados ∧ (∀ f ∈ finales, f < estados) ∧
    trans.length = estados ∧
    ∀ fila ∈ trans, ∀ d ∈ fila, d < estados

instance (estados : Nat) (finales : List Nat) (trans : List (List Nat)) :
    Decidable (EntradaValida estados finales trans) := by
  unfold EntradaValida; infer_instance

/-- One transition step: the destination of state `s` on symbol `a`, if
both the row and the entry exist. -/
def pasoOpt (trans : List (List Nat)) (s a : Nat) : Option Nat :=
  (trans.get? s).bind fun fila => fila.get? a

/-- Running a word from a state; `none` when some step is undefined
(missing row or symbol index beyond the row's length). -/
def runOpt (trans : List (List Nat)) : Nat → List Nat → Option Nat
  | s, [] => some s
  | s, a :: w => (pasoOpt trans s a).bind fun t => runOpt trans t w

/-- Myhill–Nerode distinguishability: some input word drives both states
to ends of differing finality. -/
def Distinguible (finales : List Nat) (trans : List (List Nat))
    (i j : Nat) : Prop :=
  ∃ w p q, runOpt trans i w = some p ∧ runOpt trans j w = some q ∧
    esFinal finales p ≠ esFinal finales q

/-- Soundness invariant carried through the algorithm: every `True` entry
sits strictly above the diagonal, inside the state range, and its pair of
states is genuinely distinguishable. -/
def InvTabla (finales : List Nat) (trans : List (List Nat)) (n : Nat)
    (t : Tabla) : Prop :=
  ∀ i j, tget t i j = true →
    i < j ∧ j < n ∧ Distinguible finales trans i j

/-- Shape invariant: the table has `n` rows of `n` entries each. -/
def Forma (t : Tabla) (n : Nat) : Prop :=
  t.length = n ∧ ∀ fila ∈ t, fila.length = n

/-- Upper-triangularity invariant: `True` entries occur only above the
diagonal. -/
def TriSup (t : Tabla) : Prop := ∀ i j, tget t i j = true → i < j

/-- Strict lexicographic order on pairs, the scan order of the source's
nested loops. -/
def lexLt (a b : Nat × Nat) : Prop :=
  a.1 < b.1 ∨ (a.1 = b.1 ∧ a.2 < b.2)

/-- Number of marked pairs of a pair list (the termination measure of the
propagation loop). -/
def numMarc (pares : List (Nat × Nat)) (t : Tabla) : Nat :=
  pares.countP fun ij => tget t ij.1 ij.2

/-! ### Checked (exception-aware) variants

Each Python list access `l[k]` raises `IndexError` when out of range; the
variants below return `none` exactly in that case, so `= some _` states
that the source performs no out-of-bounds access. -/

/-- Checked read `tabla[i][j]`. -/
def tgetE (t : Tabla) (i j : Nat) : Option Bool :=
  (t.get? i).bind fun fila => fila.get? j

/-- Checked write `tabla[i][j] = b`. -/
def tsetE (t : Tabla) (i j : Nat) (b : Bool) : Option Tabla :=
  (t.get? i).bind fun fila =>
    if j < fila.length then some (t.set i (fila.set j b)) else none

/-- Checked base-case marking loop. -/
def tablaInicialE (estados : Nat) (finales : List Nat) : Option Tabla :=
  (paresLista estados).foldlM
    (fun t ij =>
      if esFinal finales ij.1 != esFinal finales ij.2 then
        tsetE t ij.1 ij.2 true
      else some t)
    (List.replicate estados (List.replicate estados false))

/-- Checked symbol loop: reads `transiciones[j]` at each iteration (as the
source's `len(transiciones[j])` does) and the table at the swapped
destination pair. -/
def buscaSimboloE (trans : List (List Nat)) (t : Tabla) (j : Nat) :
    List Nat → Nat → Option Bool
  | [], _ => some false
  | p :: resto, k =>
    (trans.get? j).bind fun fJ =>
      if k < fJ.length then
        let q := fJ.getD k 0
        (tgetE t (min p q) (max p q)).bind fun m =>
          if m then some true else buscaSimboloE trans t j resto (k + 1)
      else buscaSimboloE trans t j resto (k + 1)

/-- Checked propagation body for one pair. -/
def procesaParE (trans : List (List Nat)) (t : Tabla) (i j : Nat) :
    Option (Tabla × Bool) :=
  (tgetE t i j).bind fun marcado =>
    if marcado then some (t, false)
    else
      (trans.get? i).bind fun fI =>
        (buscaSimboloE trans t j fI 0).bind fun d =>
          if d then (tsetE t i j true).map fun t2 => (t2, true)
          else some (t, false)

/-- Checked pass over the pair list. -/
def pasadaAuxE (trans : List (List Nat)) :
    List (Nat × Nat) → Tabla → Option (Tabla × Bool)
  | [], t => some (t, false)
  | ij :: resto, t =>
    (procesaParE trans t ij.1 ij.2).bind fun r =>
      (pasadaAuxE trans resto r.1).bind fun s => some (s.1, r.2 || s.2)

/-- Checked propagation loop. -/
def buclePropagacionE (trans : List (List Nat)) (pares : List (Nat × Nat)) :
    Nat → Tabla → Option Tabla
  | 0, t => some t
  | fuel + 1, t =>
    (pasadaAuxE trans pares t).bind fun r =>
      if r.2 then buclePropagacionE trans pares fuel r.1 else some r.1

/-- Checked `crear_tabla_distinguibilidad`. -/
def crear_tablaE (estados : Nat) (finales : List Nat)
    (trans : List (List Nat)) : Option Tabla :=
  (tablaInicialE estados finales).bind fun t0 =>
    buclePropagacionE trans (paresLista estados) (estados * estados + 1) t0

/-- Checked `encontrar_pares_equivalentes` (appending to an accumulator,
as the source does). -/
def encontrarE (estados : Nat) (tabla : Tabla) :
    Option (List (Nat × Nat)) :=
  (paresLista estados).foldlM
    (fun acc ij =>
      (tgetE tabla ij.1 ij.2).map fun m =>
        if m then acc else acc ++ [(ij.1, ij.2)])
    []

/-! ### Basic lemmas: pair list, table reads and writes -/

theorem mem_paresLista {n i j : Nat} :
    (i, j) ∈ paresLista n ↔ i < j ∧ j < n := by
  unfold paresLista
  simp only [List.mem_bind, List.mem_map, List.mem_range, List.mem_range'_1,
    Prod.mk.injEq]
  constructor
  · rintro ⟨a, ha, b, ⟨hb1, hb2⟩, rfl, rfl⟩
    omega
  · rintro ⟨hij, hjn⟩
    exact ⟨i, by omega, j, ⟨by omega, by omega⟩, rfl, rfl⟩

theorem mem_paresLista' {n : Nat} {ij : Nat × Nat} (h : ij ∈ paresLista n) :
    ij.1 < ij.2 ∧ ij.2 < n := by
  rcases ij with ⟨i, j⟩
  exact mem_paresLista.1 h

theorem tget_eq_get? (t : Tabla) (i j : Nat) :
    tget t i j = (((t.get? i).getD []).get? j).getD false := rfl

theorem tget_tset_of_ne {i j i' j' : Nat} (t : Tabla) (b : Bool)
    (h : i ≠ i' ∨ j ≠ j') :
    tget (tset t i j b) i' j' = tget t i' j' := by
  by_cases hlen : i < t.length
  · by_cases hi : i = i'
    · subst hi
      have hj : j ≠ j' := by tauto
      rw [tget_eq_get?, tget_eq_get?]
      unfold tset
      rw [List.get?_set_eq_of_lt _ hlen]
      show (((t.getD i []).set j b).get? j').getD false
        = (((t.get? i).getD []).get? j').getD false
      rw [List.get?_set_ne _ _ hj]
      rfl
    · rw [tget_eq_get?, tget_eq_get?]
      unfold tset
      rw [List.get?_set_ne _ _ hi]
  · have hid : tset t i j b = t := by
      unfold tset
      exact List.set_eq_of_length_le (by omega)
    rw [hid]

theorem tget_tset_self {t : Tabla} {i j : Nat} (hi : i < t.length)
    (hj : j < (t.getD i []).length) (b : Bool) :
    tget (tset t i j b) i j = b := by
  rw [tget_eq_get?]
  unfold tset
  rw [List.get?_set_eq_of_lt _ hi]
  show (((t.getD i []).set j b).get? j).getD false = b
  rw [List.get?_set_eq_of_lt _ hj]
  rfl

theorem length_tset (t : Tabla) (i j : Nat) (b : Bool) :
    (tset t i j b).length = t.length := List.length_set ..

theorem forma_fila {t : Tabla} {n : Nat} (h : Forma t n) {i : Nat}
    (hi : i < n) : (t.getD i []).length = n := by
  have hlen : i < t.length := by rw [h.1]; exact hi
  have : t.get? i = some (t.get ⟨i, hlen⟩) := List.get?_eq_get hlen
  have hmem : t.get ⟨i, hlen⟩ ∈ t := List.get_mem ..
  have : t.getD i [] = t.get ⟨i, hlen⟩ := by
    show (t.get? i).getD [] = _
    rw [this]; rfl
  rw [this]
  exact h.2 _ hmem

theorem forma_tset {t : Tabla} {n : Nat} (h : Forma t n) (i j : Nat)
    (b : Bool) : Forma (tset t i j b) n := by
  by_cases hi : i < n
  · refine ⟨by rw [length_tset]; exact h.1, ?_⟩
    intro fila hf
    unfold tset at hf
    rcases List.mem_or_eq_of_mem_set hf with hmem | rfl
    · exact h.2 _ hmem
    · rw [List.length_set]
      exact forma_fila h hi
  · have hid : tset t i j b = t := by
      unfold tset
      exact List.set_eq_of_length_le (by rw [h.1]; omega)
    rw [hid]
    exact h

theorem forma_replicate (n : Nat) :
    Forma (List.replicate n (List.replicate n false)) n := by
  refine ⟨List.length_replicate .., ?_⟩
  intro fila hf
  rw [List.eq_of_mem_replicate hf]
  exact List.length_replicate ..

theorem tget_replicate (n i j : Nat) :
    tget (List.replicate n (List.replicate n false)) i j = false := by
  rw [tget_eq_get?]
  cases h : (List.replicate n (List.replicate n false)).get? i with
  | none => rfl
  | some fila =>
    have : fila ∈ List.replicate n (List.replicate n false) :=
      List.get?_mem h
    rw [List.eq_of_mem_replicate this]
    show ((List.replicate n false).get? j).getD false = false
    cases h2 : (List.replicate n false).get? j with
    | none => rfl
    | some b =>
      have : b ∈ List.replicate n false := List.get?_mem h2
      simp [h2, List.eq_of_mem_replicate this]

theorem forma_marcaBase {t : Tabla} {n : Nat} (h : Forma t n)
    (f : List Nat) (a : Nat × Nat) : Forma (marcaBase f t a) n := by
  unfold marcaBase
  split
  · exact forma_tset h ..
  · exact h

theorem forma_foldl_marcaBase {n : Nat} (f : List Nat)
    (l : List (Nat × Nat)) :
    ∀ {t : Tabla}, Forma t n → Forma (l.foldl (marcaBase f) t) n := by
  induction l with
  | nil => intro t ht; exact ht
  | cons a resto ih =>
    intro t ht
    exact ih (forma_marcaBase ht f a)

theorem forma_tablaInicial (n : Nat) (f : List Nat) :
    Forma (tablaInicial n f) n :=
  forma_foldl_marcaBase f _ (forma_replicate n)

theorem tget_tset_true_mono {t : Tabla} {i j i' j' : Nat}
    (h : tget t i' j' = true) : tget (tset t i j true) i' j' = true := by
  by_cases hij : i = i' ∧ j = j'
  · obtain ⟨rfl, rfl⟩ := hij
    by_cases hlen : i < t.length
    · by_cases hrow : j < (t.getD i []).length
      · rw [tget_tset_self hlen hrow]
      · rw [tget_eq_get?]
        unfold tset
        rw [List.get?_set_eq_of_lt _ hlen]
        show (((t.getD i []).set j true).get? j).getD false = true
        rw [List.set_eq_of_length_le (by omega)]
        exact h
    · have hid : tset t i j true = t := by
        unfold tset
        exact List.set_eq_of_length_le (by omega)
      rw [hid]
      exact h
  · rw [tget_tset_of_ne _ _ (by tauto)]
    exact h

theorem tget_marcaBase_mono {f : List Nat} {t : Tabla} {a : Nat × Nat}
    {i j : Nat} (h : tget t i j = true) :
    tget (marcaBase f t a) i j = true := by
  unfold marcaBase
  split
  · exact tget_tset_true_mono h
  · exact h

theorem tget_marcaBase {n : Nat} {f : List Nat} {t : Tabla}
    (ht : Forma t n) {a : Nat × Nat} (ha : a.1 < a.2 ∧ a.2 < n)
    (i j : Nat) :
    tget (marcaBase f t a) i j = true ↔
      tget t i j = true ∨ ((i, j) = a ∧ esFinal f i ≠ esFinal f j) := by
  obtain ⟨a1, a2⟩ := a
  simp only at ha
  unfold marcaBase
  by_cases hc : (esFinal f a1 != esFinal f a2) = true
  · rw [if_pos hc]
    by_cases hij : (i, j) = (a1, a2)
    · have h1 : i = a1 := congrArg Prod.fst hij
      have h2 : j = a2 := congrArg Prod.snd hij
      subst h1; subst h2
      have hlen : i < t.length := by rw [ht.1]; omega
      have hrow : j < (t.getD i []).length := by
        rw [forma_fila ht (by omega : i < n)]; omega
      rw [tget_tset_self hlen hrow]
      simp only [true_iff]
      exact Or.inr ⟨by trivial, bne_iff_ne.1 hc⟩
    · have hne : a1 ≠ i ∨ a2 ≠ j := by
        by_contra hcon
        push_neg at hcon
        exact hij (by rw [hcon.1, hcon.2])
      rw [tget_tset_of_ne _ _ hne]
      simp [hij]
  · rw [if_neg hc]
    have heq : esFinal f a1 = esFinal f a2 := by
      by_contra hne
      exact hc (bne_iff_ne.2 hne)
    constructor
    · exact Or.inl
    · rintro (h | ⟨hij, hne⟩)
      · exact h
      · exfalso
        have h1 : i = a1 := congrArg Prod.fst hij
        have h2 : j = a2 := congrArg Prod.snd hij
        rw [h1, h2] at hne
        exact hne heq

theorem tget_foldl_marcaBase {n : Nat} {f : List Nat}
    {l : List (Nat × Nat)} (hl : ∀ ij ∈ l, ij.1 < ij.2 ∧ ij.2 < n) :
    ∀ {t : Tabla}, Forma t n → ∀ i j,
      (tget (l.foldl (marcaBase f) t) i j = true ↔
        tget t i j = true ∨ ((i, j) ∈ l ∧ esFinal f i ≠ esFinal f j)) := by
  induction l with
  | nil =>
    intro t ht i j
    simp
  | cons a resto ih =>
    intro t ht i j
    have ha := hl a (List.mem_cons_self ..)
    have hresto : ∀ ij ∈ resto, ij.1 < ij.2 ∧ ij.2 < n :=
      fun ij h => hl ij (List.mem_cons_of_mem _ h)
    rw [List.foldl_cons, ih hresto (forma_marcaBase ht f a) i j,
      tget_marcaBase ht ha i j, List.mem_cons]
    tauto

theorem tget_tablaInicial {n : Nat} {f : List Nat} {i j : Nat} :
    tget (tablaInicial n f) i j = true ↔
      i < j ∧ j < n ∧ esFinal f i ≠ esFinal f j := by
  unfold tablaInicial
  rw [tget_foldl_marcaBase (fun ij h => mem_paresLista' h)
    (forma_replicate n) i j, tget_replicate]
  simp only [Bool.false_eq_true, false_or, mem_paresLista]
  tauto

/-! ### The propagation phase -/

theorem get?_some_getD {α : Type} {l : List α} {k : Nat} (d : α)
    (h : k < l.length) : l.get? k = some (l.getD k d) := by
  cases hk : l.get? k with
  | none => exact absurd (List.get?_eq_none.1 hk) (by omega)
  | some v =>
    have hv : l.getD k d = v := by
      show (l.get? k).getD d = v
      rw [hk]
      rfl
    rw [hv]

theorem buscaSimbolo_iff {fJ : List Nat} {t : Tabla} :
    ∀ (fI : List Nat) (k : Nat),
      (buscaSimbolo fJ t fI k = true ↔
        ∃ m p q, fI.get? m = some p ∧ fJ.get? (k + m) = some q ∧
          tget t (min p q) (max p q) = true) := by
  intro fI
  induction fI with
  | nil =>
    intro k
    simp [buscaSimbolo]
  | cons p resto ih =>
    intro k
    by_cases hk : k < fJ.length
    · have hstep : buscaSimbolo fJ t (p :: resto) k
          = ((tget t (min p (fJ.getD k 0)) (max p (fJ.getD k 0)))
            || buscaSimbolo fJ t resto (k + 1)) := by
        simp only [buscaSimbolo]
        rw [if_pos hk]
      rw [hstep, Bool.or_eq_true, ih (k + 1)]
      constructor
      · rintro (h | ⟨m, p', q, h1, h2, h3⟩)
        · exact ⟨0, p, fJ.getD k 0, rfl, by
            rw [Nat.add_zero]; exact get?_some_getD 0 hk, h⟩
        · refine ⟨m + 1, p', q, h1, ?_, h3⟩
          rw [show k + (m + 1) = (k + 1) + m from by omega]
          exact h2
      · rintro ⟨m, p', q, h1, h2, h3⟩
        cases m with
        | zero =>
          left
          have hp : p = p' := by simpa using h1
          rw [Nat.add_zero, get?_some_getD 0 hk] at h2
          have hq := Option.some.inj h2
          rw [← hp, ← hq] at h3
          exact h3
        | succ m =>
          right
          refine ⟨m, p', q, by simpa using h1, ?_, h3⟩
          rw [show (k + 1) + m = k + (m + 1) from by omega]
          exact h2
    · have hstep : buscaSimbolo fJ t (p :: resto) k
          = buscaSimbolo fJ t resto (k + 1) := by
        simp only [buscaSimbolo]
        rw [if_neg hk]
      rw [hstep, ih (k + 1)]
      constructor
      · rintro ⟨m, p', q, h1, h2, h3⟩
        rw [List.get?_eq_none.2 (by omega)] at h2
        exact Option.noConfusion h2
      · rintro ⟨m, p', q, h1, h2, h3⟩
        rw [List.get?_eq_none.2 (by omega)] at h2
        exact Option.noConfusion h2

theorem procesaPar_cases (trans : List (List Nat)) (t : Tabla)
    (i j : Nat) :
    (tget t i j = true ∧ procesaPar trans t i j = (t, false)) ∨
    (tget t i j = false ∧
      buscaSimbolo (filaDe trans j) t (filaDe trans i) 0 = true ∧
      procesaPar trans t i j = (tset t i j true, true)) ∨
    (tget t i j = false ∧
      buscaSimbolo (filaDe trans j) t (filaDe trans i) 0 = false ∧
      procesaPar trans t i j = (t, false)) := by
  unfold procesaPar
  by_cases h1 : tget t i j
  · left
    exact ⟨h1, by rw [if_pos h1]⟩
  · by_cases h2 : buscaSimbolo (filaDe trans j) t (filaDe trans i) 0
    · right; left
      refine ⟨by simpa using h1, h2, ?_⟩
      rw [if_neg h1, if_pos h2]
    · right; right
      refine ⟨by simpa using h1, by simpa using h2, ?_⟩
      rw [if_neg h1, if_neg h2]

theorem tget_procesaPar_mono {trans : List (List Nat)} {t : Tabla}
    {i j i' j' : Nat} (h : tget t i' j' = true) :
    tget (procesaPar trans t i j).1 i' j' = true := by
  rcases procesaPar_cases trans t i j with ⟨_, he⟩ | ⟨_, _, he⟩ | ⟨_, _, he⟩ <;>
    rw [he]
  · exact h
  · exact tget_tset_true_mono h
  · exact h

theorem tget_pasadaAux_mono {trans : List (List Nat)}
    {l : List (Nat × Nat)} {t : Tabla} {i j : Nat}
    (h : tget t i j = true) :
    tget (pasadaAux trans l t).1 i j = true := by
  induction l generalizing t with
  | nil => exact h
  | cons a resto ih =>
    show tget (pasadaAux trans resto (procesaPar trans t a.1 a.2).1).1 i j
      = true
    exact ih (tget_procesaPar_mono h)

theorem forma_procesaPar {trans : List (List Nat)} {t : Tabla} {n : Nat}
    (h : Forma t n) (i j : Nat) : Forma (procesaPar trans t i j).1 n := by
  rcases procesaPar_cases trans t i j with ⟨_, he⟩ | ⟨_, _, he⟩ | ⟨_, _, he⟩ <;>
    rw [he]
  · exact h
  · exact forma_tset h ..
  · exact h

theorem forma_pasadaAux {trans : List (List Nat)} {l : List (Nat × Nat)}
    {t : Tabla} {n : Nat} (h : Forma t n) :
    Forma (pasadaAux trans l t).1 n := by
  induction l generalizing t with
  | nil => exact h
  | cons a resto ih =>
    show Forma (pasadaAux trans resto (procesaPar trans t a.1 a.2).1).1 n
    exact ih (forma_procesaPar h ..)

theorem pasadaAux_of_false {trans : List (List Nat)}
    {l : List (Nat × Nat)} {t : Tabla}
    (h : (pasadaAux trans l t).2 = false) :
    (pasadaAux trans l t).1 = t ∧
      ∀ ij ∈ l, tget t ij.1 ij.2 = true ∨
        buscaSimbolo (filaDe trans ij.2) t (filaDe trans ij.1) 0 = false := by
  induction l generalizing t with
  | nil => exact ⟨rfl, by simp⟩
  | cons a resto ih =>
    have hsplit :
        pasadaAux trans (a :: resto) t
          = ((pasadaAux trans resto (procesaPar trans t a.1 a.2).1).1,
            (procesaPar trans t a.1 a.2).2 ||
              (pasadaAux trans resto (procesaPar trans t a.1 a.2).1).2) := by
      rfl
    rw [hsplit] at h ⊢
    simp only [Bool.or_eq_false_iff] at h
    obtain ⟨h1, h2⟩ := h
    rcases procesaPar_cases trans t a.1 a.2 with
      ⟨hm, he⟩ | ⟨_, _, he⟩ | ⟨hm, hb, he⟩
    · rw [he] at h2 ⊢
      obtain ⟨ht, hall⟩ := ih h2
      refine ⟨ht, ?_⟩
      intro ij hij
      rcases List.mem_cons.1 hij with rfl | hmem
      · exact Or.inl hm
      · exact hall ij hmem
    · rw [he] at h1
      exact absurd h1 (by simp)
    · rw [he] at h2 ⊢
      obtain ⟨ht, hall⟩ := ih h2
      refine ⟨ht, ?_⟩
      intro ij hij
      rcases List.mem_cons.1 hij with rfl | hmem
      · exact Or.inr hb
      · exact hall ij hmem

/-! ### Soundness: every marked pair is genuinely distinguishable -/

theorem runOpt_cons (trans : List (List Nat)) (s a : Nat) (w : List Nat) :
    runOpt trans s (a :: w)
      = (pasoOpt trans s a).bind fun u => runOpt trans u w := rfl

theorem distinguible_symm {f : List Nat} {trans : List (List Nat)}
    {i j : Nat} (h : Distinguible f trans i j) : Distinguible f trans j i := by
  obtain ⟨w, p, q, h1, h2, h3⟩ := h
  exact ⟨w, q, p, h2, h1, Ne.symm h3⟩

theorem invTabla_tablaInicial {n : Nat} {f : List Nat}
    {trans : List (List Nat)} : InvTabla f trans n (tablaInicial n f) := by
  intro i j h
  obtain ⟨hij, hjn, hne⟩ := tget_tablaInicial.1 h
  exact ⟨hij, hjn, [], i, j, rfl, rfl, hne⟩

theorem invTabla_procesaPar {f : List Nat} {trans : List (List Nat)}
    {n : Nat} {t : Tabla} (hv : EntradaValida n f trans)
    (hInv : InvTabla f trans n t) {i j : Nat} (hij : i < j) (hjn : j < n) :
    InvTabla f trans n (procesaPar trans t i j).1 := by
  rcases procesaPar_cases trans t i j with
    ⟨_, he⟩ | ⟨hm, hb, he⟩ | ⟨_, _, he⟩ <;> rw [he]
  · exact hInv
  · intro i' j' h'
    by_cases hsame : i = i' ∧ j = j'
    · obtain ⟨rfl, rfl⟩ := hsame
      refine ⟨hij, hjn, ?_⟩
      obtain ⟨m, p, q, h1, h2, h3⟩ := (buscaSimbolo_iff _ 0).1 hb
      rw [Nat.zero_add] at h2
      obtain ⟨hpq, hqn, w, x, y, hx, hy, hxy⟩ := hInv _ _ h3
      have hilen : i < trans.length := by rw [hv.2.2.1]; omega
      have hjlen : j < trans.length := by rw [hv.2.2.1]; omega
      have hfi : trans.get? i = some (filaDe trans i) := get?_some_getD [] hilen
      have hfj : trans.get? j = some (filaDe trans j) := get?_some_getD [] hjlen
      have hpi : pasoOpt trans i m = some p := by
        unfold pasoOpt
        rw [hfi]
        exact h1
      have hpj : pasoOpt trans j m = some q := by
        unfold pasoOpt
        rw [hfj]
        exact h2
      rcases Nat.le_total p q with hle | hle
      · have hmin : min p q = p := Nat.min_eq_left hle
        have hmax : max p q = q := Nat.max_eq_right hle
        rw [hmin] at hx
        rw [hmax] at hy
        refine ⟨m :: w, x, y, ?_, ?_, hxy⟩
        · rw [runOpt_cons, hpi]
          exact hx
        · rw [runOpt_cons, hpj]
          exact hy
      · have hmin : min p q = q := Nat.min_eq_right hle
        have hmax : max p q = p := Nat.max_eq_left hle
        rw [hmin] at hx
        rw [hmax] at hy
        refine ⟨m :: w, y, x, ?_, ?_, Ne.symm hxy⟩
        · rw [runOpt_cons, hpi]
          exact hy
        · rw [runOpt_cons, hpj]
          exact hx
    · rw [tget_tset_of_ne _ _ (by tauto)] at h'
      exact hInv _ _ h'
  · exact hInv

theorem invTabla_pasadaAux {f : List Nat} {trans : List (List Nat)}
    {n : Nat} {l : List (Nat × Nat)} (hv : EntradaValida n f trans)
    (hl : ∀ ij ∈ l, ij.1 < ij.2 ∧ ij.2 < n) :
    ∀ {t : Tabla}, InvTabla f trans n t →
      InvTabla f trans n (pasadaAux trans l t).1 := by
  induction l with
  | nil => intro t h; exact h
  | cons a resto ih =>
    intro t h
    have ha := hl a (List.mem_cons_self ..)
    show InvTabla f trans n
      (pasadaAux trans resto (procesaPar trans t a.1 a.2).1).1
    exact ih (fun ij hm => hl ij (List.mem_cons_of_mem _ hm))
      (invTabla_procesaPar hv h ha.1 ha.2)

theorem bucle_succ (trans : List (List Nat)) (pares : List (Nat × Nat))
    (fuel : Nat) (t : Tabla) :
    buclePropagacion trans pares (fuel + 1) t
      = if (pasadaAux trans pares t).2
        then ((buclePropagacion trans pares fuel
                (pasadaAux trans pares t).1).1,
              (buclePropagacion trans pares fuel
                (pasadaAux trans pares t).1).2 + 1)
        else ((pasadaAux trans pares t).1, 1) := by
  simp only [buclePropagacion]

theorem invTabla_bucle {f : List Nat} {trans : List (List Nat)}
    {n : Nat} {pares : List (Nat × Nat)} (hv : EntradaValida n f trans)
    (hl : ∀ ij ∈ pares, ij.1 < ij.2 ∧ ij.2 < n) :
    ∀ (fuel : Nat) {t : Tabla}, InvTabla f trans n t →
      InvTabla f trans n (buclePropagacion trans pares fuel t).1 := by
  intro fuel
  induction fuel with
  | zero => intro t h; exact h
  | succ fuel ih =>
    intro t h
    rw [bucle_succ]
    by_cases hch : (pasadaAux trans pares t).2 = true
    · rw [if_pos hch]
      exact ih (invTabla_pasadaAux hv hl h)
    · rw [if_neg hch]
      exact invTabla_pasadaAux hv hl h

theorem invTabla_crear_tabla {n : Nat} {f : List Nat}
    {trans : List (List Nat)} (hv : EntradaValida n f trans) :
    InvTabla f trans n (crear_tabla_distinguibilidad n f trans) := by
  unfold crear_tabla_distinguibilidad
  exact invTabla_bucle hv (fun ij h => mem_paresLista' h) _
    invTabla_tablaInicial

/-! ### Termination: the number of marks strictly grows at each
productive pass, so the loop reaches its fixed point -/

theorem countP_mono_of_imp {α : Type} {p q : α → Bool} :
    ∀ (l : List α), (∀ a ∈ l, p a = true → q a = true) →
      l.countP p ≤ l.countP q := by
  intro l
  induction l with
  | nil => intro _; exact Nat.le_refl _
  | cons a resto ih =>
    intro h
    rw [List.countP_cons, List.countP_cons]
    have hr := ih fun x hx => h x (List.mem_cons_of_mem _ hx)
    by_cases hpa : p a = true
    · rw [if_pos hpa, if_pos (h a (List.mem_cons_self ..) hpa)]
      omega
    · rw [if_neg hpa]
      split <;> omega

theorem countP_lt_of_witness {α : Type} {p q : α → Bool} :
    ∀ (l : List α), (∀ a ∈ l, p a = true → q a = true) →
      (∃ a ∈ l, p a = false ∧ q a = true) →
      l.countP p < l.countP q := by
  intro l
  induction l with
  | nil => rintro _ ⟨a, ha, _⟩; exact absurd ha (List.not_mem_nil a)
  | cons a resto ih =>
    rintro h ⟨w, hw, hw1, hw2⟩
    rw [List.countP_cons, List.countP_cons]
    have himp : ∀ x ∈ resto, p x = true → q x = true :=
      fun x hx => h x (List.mem_cons_of_mem _ hx)
    rcases List.mem_cons.1 hw with rfl | hmem
    · rw [hw1, hw2]
      have := countP_mono_of_imp resto himp
      simp only [Bool.false_eq_true, if_false, if_true]
      omega
    · have := ih himp ⟨w, hmem, hw1, hw2⟩
      by_cases hpa : p a = true
      · rw [if_pos hpa, if_pos (h a (List.mem_cons_self ..) hpa)]
        omega
      · rw [if_neg hpa]
        split <;> omega

theorem pasadaAux_changed {trans : List (List Nat)} {n : Nat}
    {l : List (Nat × Nat)} :
    ∀ {t : Tabla}, Forma t n → (∀ ij ∈ l, ij.1 < ij.2 ∧ ij.2 < n) →
      (pasadaAux trans l t).2 = true →
      ∃ ij ∈ l, tget t ij.1 ij.2 = false ∧
        tget (pasadaAux trans l t).1 ij.1 ij.2 = true := by
  induction l with
  | nil =>
    intro t _ _ h
    exact absurd h (by simp [pasadaAux])
  | cons a resto ih =>
    intro t hforma hl h
    have hsplit :
        pasadaAux trans (a :: resto) t
          = ((pasadaAux trans resto (procesaPar trans t a.1 a.2).1).1,
            (procesaPar trans t a.1 a.2).2 ||
              (pasadaAux trans resto (procesaPar trans t a.1 a.2).1).2) :=
      rfl
    have hresto : ∀ ij ∈ resto, ij.1 < ij.2 ∧ ij.2 < n :=
      fun ij hm => hl ij (List.mem_cons_of_mem _ hm)
    rw [hsplit] at h ⊢
    rcases procesaPar_cases trans t a.1 a.2 with
      ⟨hm, he⟩ | ⟨hm, hb, he⟩ | ⟨hm, hb, he⟩
    · rw [he] at h ⊢
      simp only [Bool.false_or] at h
      obtain ⟨ij, hij, h1, h2⟩ := ih hforma hresto h
      exact ⟨ij, List.mem_cons_of_mem _ hij, h1, h2⟩
    · rw [he]
      refine ⟨a, List.mem_cons_self .., hm, ?_⟩
      have ha := hl a (List.mem_cons_self ..)
      have hset : tget (tset t a.1 a.2 true) a.1 a.2 = true := by
        rw [tget_tset_self (by rw [hforma.1]; omega)
          (by rw [forma_fila hforma (by omega : a.1 < n)]; omega)]
      exact tget_pasadaAux_mono hset
    · rw [he] at h ⊢
      simp only [Bool.false_or] at h
      obtain ⟨ij, hij, h1, h2⟩ := ih hforma hresto h
      exact ⟨ij, List.mem_cons_of_mem _ hij, h1, h2⟩

theorem numMarc_le (l : List (Nat × Nat)) (t : Tabla) :
    numMarc l t ≤ l.length := List.countP_le_length _

theorem numMarc_pasadaAux_lt {trans : List (List Nat)} {n : Nat}
    {l : List (Nat × Nat)} {t : Tabla} (hforma : Forma t n)
    (hl : ∀ ij ∈ l, ij.1 < ij.2 ∧ ij.2 < n)
    (h : (pasadaAux trans l t).2 = true) :
    numMarc l t < numMarc l (pasadaAux trans l t).1 := by
  obtain ⟨ij, hij, h1, h2⟩ := pasadaAux_changed hforma hl h
  exact countP_lt_of_witness l
    (fun a _ ha => tget_pasadaAux_mono ha) ⟨ij, hij, h1, h2⟩

theorem bucle_fixpoint {trans : List (List Nat)} {n : Nat}
    {pares : List (Nat × Nat)}
    (hl : ∀ ij ∈ pares, ij.1 < ij.2 ∧ ij.2 < n) :
    ∀ (fuel : Nat) (t : Tabla), Forma t n →
      pares.length < numMarc pares t + fuel →
      pasadaAux trans pares (buclePropagacion trans pares fuel t).1
          = ((buclePropagacion trans pares fuel t).1, false) ∧
        (buclePropagacion trans pares fuel t).2 + numMarc pares t
          ≤ pares.length + 1 := by
  intro fuel
  induction fuel with
  | zero =>
    intro t _ hcount
    exact absurd (numMarc_le pares t) (by omega)
  | succ fuel ih =>
    intro t hf hcount
    rw [bucle_succ]
    by_cases hch : (pasadaAux trans pares t).2 = true
    · rw [if_pos hch]
      have hlt := numMarc_pasadaAux_lt hf hl hch
      have hf' : Forma (pasadaAux trans pares t).1 n := forma_pasadaAux hf
      obtain ⟨hfix, hcnt⟩ := ih (pasadaAux trans pares t).1 hf' (by omega)
      exact ⟨hfix, by omega⟩
    · rw [if_neg hch]
      have hch' : (pasadaAux trans pares t).2 = false := by
        simpa using hch
      obtain ⟨hteq, _⟩ := pasadaAux_of_false hch'
      constructor
      · show pasadaAux trans pares (pasadaAux trans pares t).1
          = ((pasadaAux trans pares t).1, false)
        rw [hteq]
        exact Prod.ext hteq hch'
      · have := numMarc_le pares t
        show 1 + numMarc pares t ≤ pares.length + 1
        omega

theorem length_paresLista (n : Nat) :
    (paresLista n).length = n * (n - 1) / 2 := by
  unfold paresLista
  rw [List.length_bind]
  simp only [Function.comp_def, List.length_map, List.length_range']
  have hb : ((List.range n).map fun i => n - (i + 1)).sum
      = ∑ i in Finset.range n, (n - (i + 1)) := rfl
  rw [hb]
  have h1 : ∑ i in Finset.range n, (n - (i + 1))
      = ∑ i in Finset.range n, i := by
    calc ∑ i in Finset.range n, (n - (i + 1))
        = ∑ i in Finset.range n, (n - 1 - i) := by
          apply Finset.sum_congr rfl
          intro i _
          omega
      _ = ∑ i in Finset.range n, i :=
          Finset.sum_range_reflect (fun i => i) n
  rw [h1]
  have h2 := Finset.sum_range_id_mul_two n
  omega

theorem length_paresLista_le (n : Nat) : (paresLista n).length ≤ n * n := by
  rw [length_paresLista]
  have h1 : n * (n - 1) ≤ n * n := Nat.mul_le_mul_left _ (by omega)
  omega

theorem crear_tabla_fixpoint (n : Nat) (f : List Nat)
    (trans : List (List Nat)) :
    pasadaAux trans (paresLista n) (crear_tabla_distinguibilidad n f trans)
        = (crear_tabla_distinguibilidad n f trans, false) ∧
      cuentaPasadas n f trans ≤ n * (n - 1) / 2 + 1 := by
  have hl : ∀ ij ∈ paresLista n, ij.1 < ij.2 ∧ ij.2 < n :=
    fun ij h => mem_paresLista' h
  have hf := forma_tablaInicial n f
  have hcount : (paresLista n).length
      < numMarc (paresLista n) (tablaInicial n f) + (n * n + 1) := by
    have := length_paresLista_le n
    omega
  obtain ⟨h1, h2⟩ := bucle_fixpoint hl (n * n + 1) (tablaInicial n f) hf
    hcount
  have hlen := length_paresLista n
  unfold crear_tabla_distinguibilidad cuentaPasadas
  exact ⟨h1, by omega⟩

theorem tget_bucle_mono {trans : List (List Nat)}
    {pares : List (Nat × Nat)} :
    ∀ (fuel : Nat) {t : Tabla} {i j : Nat}, tget t i j = true →
      tget (buclePropagacion trans pares fuel t).1 i j = true := by
  intro fuel
  induction fuel with
  | zero => intro t i j h; exact h
  | succ fuel ih =>
    intro t i j h
    rw [bucle_succ]
    by_cases hch : (pasadaAux trans pares t).2 = true
    · rw [if_pos hch]
      exact ih (tget_pasadaAux_mono h)
    · rw [if_neg hch]
      exact tget_pasadaAux_mono h

theorem tget_crear_of_base {n : Nat} {f : List Nat}
    {trans : List (List Nat)} {i j : Nat}
    (h : tget (tablaInicial n f) i j = true) :
    tget (crear_tabla_distinguibilidad n f trans) i j = true := by
  unfold crear_tabla_distinguibilidad
  exact tget_bucle_mono _ h

theorem crear_tabla_cerrada {n : Nat} {f : List Nat}
    {trans : List (List Nat)} {i j : Nat} (hij : i < j) (hjn : j < n)
    (hno : tget (crear_tabla_distinguibilidad n f trans) i j = false) :
    buscaSimbolo (filaDe trans j) (crear_tabla_distinguibilidad n f trans)
      (filaDe trans i) 0 = false := by
  have hfix := (crear_tabla_fixpoint n f trans).1
  have hsnd : (pasadaAux trans (paresLista n)
      (crear_tabla_distinguibilidad n f trans)).2 = false := by
    rw [hfix]
  obtain ⟨_, hall⟩ := pasadaAux_of_false hsnd
  rcases hall (i, j) (mem_paresLista.2 ⟨hij, hjn⟩) with hmark | hbusca
  · rw [hno] at hmark
    exact absurd hmark (by simp)
  · exact hbusca

/-! ### Completeness: every distinguishable pair ends up marked -/

theorem pasoOpt_dest {trans : List (List Nat)} {s a p : Nat}
    (h : pasoOpt trans s a = some p) :
    s < trans.length ∧ (filaDe trans s).get? a = some p := by
  unfold pasoOpt at h
  cases hs : trans.get? s with
  | none =>
    rw [hs] at h
    exact absurd h (by simp)
  | some fila =>
    rw [hs] at h
    have h2 : fila.get? a = some p := h
    constructor
    · by_contra hge
      rw [List.get?_eq_none.2 (by omega)] at hs
      exact Option.noConfusion hs
    · have hfila : filaDe trans s = fila := by
        show (trans.get? s).getD [] = fila
        rw [hs]
        rfl
      rw [hfila]
      exact h2

theorem pasoOpt_lt {n : Nat} {f : List Nat} {trans : List (List Nat)}
    (hv : EntradaValida n f trans) {s a p : Nat}
    (h : pasoOpt trans s a = some p) : p < n := by
  obtain ⟨hs, hget⟩ := pasoOpt_dest h
  have hfmem : filaDe trans s ∈ trans :=
    List.get?_mem (get?_some_getD [] hs)
  exact hv.2.2.2 _ hfmem p (List.get?_mem hget)

theorem marcado_of_distinguible {n : Nat} {f : List Nat}
    {trans : List (List Nat)} (hv : EntradaValida n f trans) :
    ∀ (w : List Nat) (i j p q : Nat), i < j → j < n →
      runOpt trans i w = some p → runOpt trans j w = some q →
      esFinal f p ≠ esFinal f q →
      tget (crear_tabla_distinguibilidad n f trans) i j = true := by
  intro w
  induction w with
  | nil =>
    intro i j p q hij hjn hp hq hne
    have hpi : i = p := by simpa [runOpt] using hp
    have hqj : j = q := by simpa [runOpt] using hq
    apply tget_crear_of_base
    apply tget_tablaInicial.2
    refine ⟨hij, hjn, ?_⟩
    rw [hpi, hqj]
    exact hne
  | cons a w ih =>
    intro i j p q hij hjn hp hq hne
    rw [runOpt_cons] at hp hq
    cases hpi : pasoOpt trans i a with
    | none =>
      rw [hpi] at hp
      exact absurd hp (by simp)
    | some p1 =>
      cases hqj : pasoOpt trans j a with
      | none =>
        rw [hqj] at hq
        exact absurd hq (by simp)
      | some q1 =>
        rw [hpi] at hp
        rw [hqj] at hq
        have hp' : runOpt trans p1 w = some p := hp
        have hq' : runOpt trans q1 w = some q := hq
        have hp1n : p1 < n := pasoOpt_lt hv hpi
        have hq1n : q1 < n := pasoOpt_lt hv hqj
        by_cases hpq : p1 = q1
        · subst hpq
          rw [hp'] at hq'
          have hpeq : p = q := Option.some.inj hq'
          exact absurd (congrArg (esFinal f) hpeq) hne
        · have hmark : tget (crear_tabla_distinguibilidad n f trans)
              (min p1 q1) (max p1 q1) = true := by
            rcases Nat.lt_or_ge p1 q1 with hlt | hge
            · rw [Nat.min_eq_left (Nat.le_of_lt hlt),
                Nat.max_eq_right (Nat.le_of_lt hlt)]
              exact ih p1 q1 p q hlt hq1n hp' hq' hne
            · have hlt : q1 < p1 := by omega
              rw [Nat.min_eq_right (Nat.le_of_lt hlt),
                Nat.max_eq_left (Nat.le_of_lt hlt)]
              exact ih q1 p1 q p hlt hp1n hq' hp' (Ne.symm hne)
          by_contra hno
          have hno' : tget (crear_tabla_distinguibilidad n f trans) i j
              = false := by
            simpa using hno
          have hcl := crear_tabla_cerrada hij hjn hno'
          obtain ⟨hilen, hgi⟩ := pasoOpt_dest hpi
          obtain ⟨hjlen, hgj⟩ := pasoOpt_dest hqj
          have hwit : buscaSimbolo (filaDe trans j)
              (crear_tabla_distinguibilidad n f trans)
              (filaDe trans i) 0 = true :=
            (buscaSimbolo_iff _ 0).2
              ⟨a, p1, q1, hgi, by rw [Nat.zero_add]; exact hgj, hmark⟩
          rw [hcl] at hwit
          exact Bool.noConfusion hwit

/-! ### The extractor and the validator -/

theorem paresLista_pairwise (n : Nat) : (paresLista n).Pairwise lexLt := by
  unfold paresLista
  apply List.pairwise_bind.2
  constructor
  · intro a _
    apply List.pairwise_map.2
    exact List.Pairwise.imp (fun h => Or.inr ⟨rfl, h⟩)
      (List.pairwise_lt_range' (a + 1) (n - (a + 1)))
  · refine List.Pairwise.imp ?_ (List.pairwise_lt_range n)
    intro a b hab x hx y hy
    obtain ⟨xa, _, rfl⟩ := List.mem_map.1 hx
    obtain ⟨yb, _, rfl⟩ := List.mem_map.1 hy
    exact Or.inl hab

theorem encontrar_mem {estados : Nat} {tabla : Tabla} {i j : Nat} :
    (i, j) ∈ encontrar_pares_equivalentes estados tabla ↔
      i < j ∧ j < estados ∧ tget tabla i j = false := by
  unfold encontrar_pares_equivalentes
  rw [List.mem_filter, mem_paresLista]
  simp only [Bool.not_eq_true']
  tauto

theorem encontrar_sorted (estados : Nat) (tabla : Tabla) :
    (encontrar_pares_equivalentes estados tabla).Pairwise lexLt :=
  (paresLista_pairwise estados).filter _

theorem validar_entrada_true_iff (estados : Int) (finales : List Int)
    (trans : List (List Int)) :
    validar_entrada estados finales trans = true ↔
      (0 < estados ∧ (∀ e ∈ finales, 0 ≤ e ∧ e < estados) ∧
        (trans.length : Int) = estados ∧
        ∀ fila ∈ trans, ∀ d ∈ fila, 0 ≤ d ∧ d < estados) := by
  have hany1 : (finales.any fun e => e < 0 || e ≥ estados) = true ↔
      ∃ e ∈ finales, e < 0 ∨ estados ≤ e := by
    simp [List.any_eq_true]
  have hany2 : (trans.any fun fila =>
      fila.any fun d => d < 0 || d ≥ estados) = true ↔
      ∃ fila ∈ trans, ∃ d ∈ fila, d < 0 ∨ estados ≤ d := by
    simp [List.any_eq_true]
  unfold validar_entrada
  split_ifs with h1 h2 h3 h4
  · simp only [Bool.false_eq_true, false_iff]
    intro hc
    omega
  · simp only [Bool.false_eq_true, false_iff]
    intro hc
    obtain ⟨e, he, hbad⟩ := hany1.1 h2
    have := hc.2.1 e he
    omega
  · simp only [Bool.false_eq_true, false_iff]
    intro hc
    exact h3 hc.2.2.1
  · simp only [Bool.false_eq_true, false_iff]
    intro hc
    obtain ⟨fila, hf, d, hd, hbad⟩ := hany2.1 h4
    have := hc.2.2.2 fila hf d hd
    omega
  · simp only [true_iff]
    refine ⟨by omega, ?_, by omega, ?_⟩
    · intro e he
      have hne : ¬(e < 0 ∨ estados ≤ e) := fun hb => h2 (hany1.2 ⟨e, he, hb⟩)
      omega
    · intro fila hf d hd
      have hne : ¬(d < 0 ∨ estados ≤ d) :=
        fun hb => h4 (hany2.2 ⟨fila, hf, d, hd, hb⟩)
      omega

/-! ### The checked embedding agrees with the total one on validated
input: no list access goes out of bounds -/

theorem tgetE_eq {t : Tabla} {n i j : Nat} (hf : Forma t n) (hi : i < n)
    (hj : j < n) : tgetE t i j = some (tget t i j) := by
  unfold tgetE
  rw [get?_some_getD [] (by rw [hf.1]; exact hi)]
  show (t.getD i []).get? j = some (tget t i j)
  rw [get?_some_getD false (by rw [forma_fila hf hi]; exact hj)]
  rfl

theorem tsetE_eq {t : Tabla} {n i j : Nat} (hf : Forma t n) (hi : i < n)
    (hj : j < n) (b : Bool) : tsetE t i j b = some (tset t i j b) := by
  unfold tsetE tset
  rw [get?_some_getD [] (by rw [hf.1]; exact hi)]
  show (if j < (t.getD i []).length then
    some (t.set i ((t.getD i []).set j b)) else none) = _
  rw [if_pos (by rw [forma_fila hf hi]; exact hj)]

theorem tablaInicialE_aux {n : Nat} {f : List Nat} :
    ∀ (l : List (Nat × Nat)), (∀ ij ∈ l, ij.1 < ij.2 ∧ ij.2 < n) →
      ∀ (t : Tabla), Forma t n →
        (l.foldlM (fun t ij =>
            if esFinal f ij.1 != esFinal f ij.2 then
              tsetE t ij.1 ij.2 true
            else some t) t)
          = some (l.foldl (marcaBase f) t) := by
  intro l
  induction l with
  | nil => intro _ t _; rfl
  | cons a resto ih =>
    intro hl t ht
    have ha := hl a (List.mem_cons_self ..)
    have hresto : ∀ ij ∈ resto, ij.1 < ij.2 ∧ ij.2 < n :=
      fun ij hm => hl ij (List.mem_cons_of_mem _ hm)
    show (if esFinal f a.1 != esFinal f a.2 then tsetE t a.1 a.2 true
        else some t).bind _ = _
    by_cases hc : (esFinal f a.1 != esFinal f a.2) = true
    · rw [if_pos hc, tsetE_eq ht (by omega) (by omega)]
      show resto.foldlM _ (tset t a.1 a.2 true) = _
      rw [ih hresto _ (forma_tset ht ..)]
      have : marcaBase f t a = tset t a.1 a.2 true := by
        unfold marcaBase
        rw [if_pos hc]
      rw [List.foldl_cons, this]
    · rw [if_neg hc]
      show resto.foldlM _ t = _
      rw [ih hresto t ht]
      have : marcaBase f t a = t := by
        unfold marcaBase
        rw [if_neg hc]
      rw [List.foldl_cons, this]

theorem tablaInicialE_eq (n : Nat) (f : List Nat) :
    tablaInicialE n f = some (tablaInicial n f) :=
  tablaInicialE_aux (paresLista n) (fun ij h => mem_paresLista' h) _
    (forma_replicate n)

theorem buscaSimboloE_eq {trans : List (List Nat)} {n : Nat} {t : Tabla}
    {j : Nat} (hf : Forma t n) (hjt : j < trans.length)
    (htargets : ∀ fila ∈ trans, ∀ d ∈ fila, d < n) :
    ∀ (fI : List Nat) (k : Nat), (∀ p ∈ fI, p < n) →
      buscaSimboloE trans t j fI k
        = some (buscaSimbolo (filaDe trans j) t fI k) := by
  intro fI
  induction fI with
  | nil => intro k _; rfl
  | cons p resto ih =>
    intro k hfI
    have hp : p < n := hfI p (List.mem_cons_self ..)
    have hresto : ∀ x ∈ resto, x < n :=
      fun x hx => hfI x (List.mem_cons_of_mem _ hx)
    have hjfila : trans.get? j = some (filaDe trans j) :=
      get?_some_getD [] hjt
    have hmemJ : filaDe trans j ∈ trans := List.get?_mem hjfila
    show (trans.get? j).bind _ = _
    rw [hjfila]
    show (if k < (filaDe trans j).length then _ else _) = _
    by_cases hk : k < (filaDe trans j).length
    · rw [if_pos hk]
      have hq : (filaDe trans j).getD k 0 < n :=
        htargets _ hmemJ _ (List.get?_mem (get?_some_getD 0 hk))
      have hminmax : min p ((filaDe trans j).getD k 0) < n ∧
          max p ((filaDe trans j).getD k 0) < n := by
        constructor <;> omega
      rw [tgetE_eq hf hminmax.1 hminmax.2]
      show (if tget t (min p ((filaDe trans j).getD k 0))
          (max p ((filaDe trans j).getD k 0)) = true then some true
        else buscaSimboloE trans t j resto (k + 1)) = _
      have hstep : buscaSimbolo (filaDe trans j) t (p :: resto) k
          = ((tget t (min p ((filaDe trans j).getD k 0))
              (max p ((filaDe trans j).getD k 0)))
            || buscaSimbolo (filaDe trans j) t resto (k + 1)) := by
        simp only [buscaSimbolo]
        rw [if_pos hk]
      rw [hstep]
      by_cases hm : tget t (min p ((filaDe trans j).getD k 0))
          (max p ((filaDe trans j).getD k 0)) = true
      · rw [if_pos hm, hm, Bool.true_or]
      · rw [if_neg hm, ih (k + 1) hresto,
          (by simpa using hm : tget t (min p ((filaDe trans j).getD k 0))
            (max p ((filaDe trans j).getD k 0)) = false), Bool.false_or]
    · rw [if_neg hk]
      have hstep : buscaSimbolo (filaDe trans j) t (p :: resto) k
          = buscaSimbolo (filaDe trans j) t resto (k + 1) := by
        simp only [buscaSimbolo]
        rw [if_neg hk]
      rw [hstep, ih (k + 1) hresto]

theorem filaDe_targets {trans : List (List Nat)} {n : Nat}
    (htargets : ∀ fila ∈ trans, ∀ d ∈ fila, d < n) {i : Nat}
    (hi : i < trans.length) : ∀ p ∈ filaDe trans i, p < n :=
  fun p hp => htargets _ (List.get?_mem (get?_some_getD [] hi)) p hp

theorem procesaParE_eq {trans : List (List Nat)} {n : Nat} {t : Tabla}
    {i j : Nat} (hf : Forma t n) (htr : trans.length = n)
    (htargets : ∀ fila ∈ trans, ∀ d ∈ fila, d < n)
    (hi : i < n) (hj : j < n) :
    procesaParE trans t i j = some (procesaPar trans t i j) := by
  unfold procesaParE procesaPar
  rw [tgetE_eq hf hi hj]
  show (if tget t i j = true then some (t, false) else _) = _
  by_cases hm : tget t i j = true
  · rw [if_pos hm, if_pos hm]
  · rw [if_neg hm, if_neg hm,
      get?_some_getD [] (by omega : i < trans.length)]
    show (buscaSimboloE trans t j (filaDe trans i) 0).bind _ = _
    rw [buscaSimboloE_eq hf (by omega) htargets (filaDe trans i) 0
      (filaDe_targets htargets (by omega))]
    show (if buscaSimbolo (filaDe trans j) t (filaDe trans i) 0 = true
      then (tsetE t i j true).map _ else some (t, false)) = _
    by_cases hb : buscaSimbolo (filaDe trans j) t (filaDe trans i) 0 = true
    · rw [if_pos hb, if_pos hb, tsetE_eq hf hi hj]
      rfl
    · rw [if_neg hb, if_neg hb]

theorem pasadaAuxE_eq {trans : List (List Nat)} {n : Nat}
    (htr : trans.length = n)
    (htargets : ∀ fila ∈ trans, ∀ d ∈ fila, d < n) :
    ∀ (l : List (Nat × Nat)), (∀ ij ∈ l, ij.1 < ij.2 ∧ ij.2 < n) →
      ∀ (t : Tabla), Forma t n →
        pasadaAuxE trans l t = some (pasadaAux trans l t) := by
  intro l
  induction l with
  | nil => intro _ t _; rfl
  | cons a resto ih =>
    intro hl t hf
    have ha := hl a (List.mem_cons_self ..)
    have hresto : ∀ ij ∈ resto, ij.1 < ij.2 ∧ ij.2 < n :=
      fun ij hm => hl ij (List.mem_cons_of_mem _ hm)
    show (procesaParE trans t a.1 a.2).bind _ = _
    rw [procesaParE_eq hf htr htargets (by omega) (by omega)]
    show (pasadaAuxE trans resto (procesaPar trans t a.1 a.2).1).bind _ = _
    rw [ih hresto _ (forma_procesaPar hf ..)]
    rfl

theorem buclePropagacionE_eq {trans : List (List Nat)} {n : Nat}
    {pares : List (Nat × Nat)} (htr : trans.length = n)
    (htargets : ∀ fila ∈ trans, ∀ d ∈ fila, d < n)
    (hl : ∀ ij ∈ pares, ij.1 < ij.2 ∧ ij.2 < n) :
    ∀ (fuel : Nat) (t : Tabla), Forma t n →
      buclePropagacionE trans pares fuel t
        = some ((buclePropagacion trans pares fuel t).1) := by
  intro fuel
  induction fuel with
  | zero => intro t _; rfl
  | succ fuel ih =>
    intro t hf
    show (pasadaAuxE trans pares t).bind _ = _
    rw [pasadaAuxE_eq htr htargets pares hl t hf, bucle_succ]
    show (if (pasadaAux trans pares t).2 = true
        then buclePropagacionE trans pares fuel (pasadaAux trans pares t).1
        else some (pasadaAux trans pares t).1) = _
    by_cases hch : (pasadaAux trans pares t).2 = true
    · rw [if_pos hch, if_pos hch]
      exact ih _ (forma_pasadaAux hf)
    · rw [if_neg hch, if_neg hch]

theorem crear_tablaE_eq {n : Nat} {f : List Nat}
    {trans : List (List Nat)} (hv : EntradaValida n f trans) :
    crear_tablaE n f trans
      = some (crear_tabla_distinguibilidad n f trans) := by
  unfold crear_tablaE
  rw [tablaInicialE_eq]
  show buclePropagacionE trans (paresLista n) (n * n + 1)
    (tablaInicial n f) = _
  exact buclePropagacionE_eq hv.2.2.1 hv.2.2.2
    (fun ij h => mem_paresLista' h) _ _ (forma_tablaInicial n f)

theorem encontrarE_aux {tabla : Tabla} {n : Nat} (hf : Forma tabla n) :
    ∀ (l : List (Nat × Nat)), (∀ ij ∈ l, ij.1 < ij.2 ∧ ij.2 < n) →
      ∀ (acc : List (Nat × Nat)),
        (l.foldlM (fun acc ij =>
            (tgetE tabla ij.1 ij.2).map fun m =>
              if m then acc else acc ++ [(ij.1, ij.2)]) acc)
          = some (acc ++ l.filter fun ij => !(tget tabla ij.1 ij.2)) := by
  intro l
  induction l with
  | nil =>
    intro _ acc
    show some acc = _
    rw [List.filter_nil, List.append_nil]
  | cons a resto ih =>
    intro hl acc
    have ha := hl a (List.mem_cons_self ..)
    have hresto : ∀ ij ∈ resto, ij.1 < ij.2 ∧ ij.2 < n :=
      fun ij hm => hl ij (List.mem_cons_of_mem _ hm)
    show ((tgetE tabla a.1 a.2).map _).bind _ = _
    rw [tgetE_eq hf (by omega) (by omega)]
    show resto.foldlM _
        (if tget tabla a.1 a.2 = true then acc else acc ++ [(a.1, a.2)]) = _
    by_cases hm : tget tabla a.1 a.2 = true
    · rw [if_pos hm, ih hresto acc]
      simp [List.filter_cons, hm]
    · rw [if_neg hm, ih hresto (acc ++ [(a.1, a.2)])]
      simp [List.filter_cons, hm]

theorem encontrarE_eq {n : Nat} {tabla : Tabla} (hf : Forma tabla n) :
    encontrarE n tabla = some (encontrar_pares_equivalentes n tabla) := by
  unfold encontrarE encontrar_pares_equivalentes
  rw [encontrarE_aux hf (paresLista n) (fun ij h => mem_paresLista' h) [],
    List.nil_append]

theorem forma_crear_tabla (n : Nat) (f : List Nat)
    (trans : List (List Nat)) :
    Forma (crear_tabla_distinguibilidad n f trans) n := by
  unfold crear_tabla_distinguibilidad
  have : ∀ (fuel : Nat) (t : Tabla), Forma t n →
      Forma (buclePropagacion trans (paresLista n) fuel t).1 n := by
    intro fuel
    induction fuel with
    | zero => intro t h; exact h
    | succ fuel ih =>
      intro t h
      rw [bucle_succ]
      by_cases hch : (pasadaAux trans (paresLista n) t).2 = true
      · rw [if_pos hch]
        exact ih _ (forma_pasadaAux h)
      · rw [if_neg hch]
        exact forma_pasadaAux h
  exact this _ _ (forma_tablaInicial n f)

/-! ### Upper-triangularity of the table at every point -/

theorem trisup_tablaInicial (n : Nat) (f : List Nat) :
    TriSup (tablaInicial n f) := by
  intro i j h
  exact (tget_tablaInicial.1 h).1

theorem trisup_procesaPar {trans : List (List Nat)} {t : Tabla}
    {i j : Nat} (h : TriSup t) (hij : i < j) :
    TriSup (procesaPar trans t i j).1 := by
  rcases procesaPar_cases trans t i j with
    ⟨_, he⟩ | ⟨_, _, he⟩ | ⟨_, _, he⟩ <;> rw [he]
  · exact h
  · intro i' j' h'
    by_cases hsame : i = i' ∧ j = j'
    · obtain ⟨rfl, rfl⟩ := hsame
      exact hij
    · rw [tget_tset_of_ne _ _ (by tauto)] at h'
      exact h _ _ h'
  · exact h

theorem trisup_pasadaAux {trans : List (List Nat)}
    {l : List (Nat × Nat)} (hl : ∀ ij ∈ l, ij.1 < ij.2) :
    ∀ {t : Tabla}, TriSup t → TriSup (pasadaAux trans l t).1 := by
  induction l with
  | nil => intro t h; exact h
  | cons a resto ih =>
    intro t h
    show TriSup (pasadaAux trans resto (procesaPar trans t a.1 a.2).1).1
    exact ih (fun ij hm => hl ij (List.mem_cons_of_mem _ hm))
      (trisup_procesaPar h (hl a (List.mem_cons_self ..)))

theorem trisup_bucle {trans : List (List Nat)}
    {pares : List (Nat × Nat)} (hl : ∀ ij ∈ pares, ij.1 < ij.2) :
    ∀ (fuel : Nat) {t : Tabla}, TriSup t →
      TriSup (buclePropagacion trans pares fuel t).1 := by
  intro fuel
  induction fuel with
  | zero => intro t h; exact h
  | succ fuel ih =>
    intro t h
    rw [bucle_succ]
    by_cases hch : (pasadaAux trans pares t).2 = true
    · rw [if_pos hch]
      exact ih (trisup_pasadaAux hl h)
    · rw [if_neg hch]
      exact trisup_pasadaAux hl h

theorem trisup_crear_tabla (n : Nat) (f : List Nat)
    (trans : List (List Nat)) :
    TriSup (crear_tabla_distinguibilidad n f trans) := by
  unfold crear_tabla_distinguibilidad
  exact trisup_bucle (fun ij h => (mem_paresLista' h).1) _
    (trisup_tablaInicial n f)

theorem trisup_diag {t : Tabla} (h : TriSup t) (p : Nat) :
    tget t p p = false := by
  cases hc : tget t p p with
  | false => rfl
  | true => exact absurd (h p p hc) (by omega)

/-! ### The claims -/

/-- C1: for every validated automaton description and every pair
`i < j` of states, the table returned by `crear_tabla_distinguibilidad`
marks the pair as distinguishable iff some input string drives `i` and
`j` to states of differing finality — exact Myhill–Nerode
distinguishability for the given automaton. -/
theorem claim_C1 {estados : Nat} {finales : List Nat}
    {transiciones : List (List Nat)}
    (hv : EntradaValida estados finales transiciones)
    {i j : Nat} (hij : i < j) (hjn : j < estados) :
    tget (crear_tabla_distinguibilidad estados finales transiciones) i j
        = true ↔ Distinguible finales transiciones i j := by
  constructor
  · intro h
    exact (invTabla_crear_tabla hv i j h).2.2
  · rintro ⟨w, p, q, hp, hq, hne⟩
    exact marcado_of_distinguible hv w i j p q hij hjn hp hq hne

/-- Witness for C1 at Scenario A, pair (0, 2). -/
theorem claim_C1_witness :
    tget (crear_tabla_distinguibilidad 3 [2] [[0, 1], [0, 1], [2, 2]])
        0 2 = true
      ↔ Distinguible [2] [[0, 1], [0, 1], [2, 2]] 0 2 :=
  claim_C1 (by decide) (by decide) (by decide)

/-- C2: `validar_entrada` reports failure exactly when the state count is
non-positive, or some declared final state lies outside
`[0, state_count)`, or the number of transition rows differs from the
state count, or some transition target lies outside `[0, state_count)`.
(The embedding is a pure function of the input triple, so it performs no
mutation by construction.) -/
theorem claim_C2 (estados : Int) (estados_finales : List Int)
    (transiciones : List (List Int)) :
    validar_entrada estados estados_finales transiciones = false ↔
      (estados ≤ 0 ∨
        (∃ e ∈ estados_finales, e < 0 ∨ estados ≤ e) ∨
        (transiciones.length : Int) ≠ estados ∨
        ∃ fila ∈ transiciones, ∃ d ∈ fila, d < 0 ∨ estados ≤ d) := by
  rw [← Bool.not_eq_true, validar_entrada_true_iff]
  constructor
  · intro h
    by_cases hA : 0 < estados
    · by_cases hB : ∀ e ∈ estados_finales, 0 ≤ e ∧ e < estados
      · by_cases hC : (transiciones.length : Int) = estados
        · by_cases hD : ∀ fila ∈ transiciones, ∀ d ∈ fila,
              0 ≤ d ∧ d < estados
          · exact absurd ⟨hA, hB, hC, hD⟩ h
          · push_neg at hD
            obtain ⟨fila, hf, d, hd, hbad⟩ := hD
            exact Or.inr (Or.inr (Or.inr ⟨fila, hf, d, hd, by omega⟩))
        · exact Or.inr (Or.inr (Or.inl hC))
      · push_neg at hB
        obtain ⟨e, he, hbad⟩ := hB
        exact Or.inr (Or.inl ⟨e, he, by omega⟩)
    · exact Or.inl (by omega)
  · rintro (h | ⟨e, he, hbad⟩ | h | ⟨fila, hf, d, hd, hbad⟩) hc
    · have := hc.1
      omega
    · have := hc.2.1 e he
      omega
    · exact h hc.2.2.1
    · have := hc.2.2.2 fila hf d hd
      omega

/-- C3, counterexample: a validated (ragged-row) 5-state automaton on
which the propagation loop runs 7 passes — 6 of them making new marks —
before stabilizing, exceeding the claimed bound of `state_count = 5`
passes. -/
theorem claim_C3_counterexample :
    EntradaValida 5 [4]
        [[1, 0, 0], [1, 0, 2, 2, 1], [1, 3, 0, 2, 3, 4],
          [2, 0, 0, 3, 1, 3], []] ∧
      cuentaPasadas 5 [4]
        [[1, 0, 0], [1, 0, 2, 2, 1], [1, 3, 0, 2, 3, 4],
          [2, 0, 0, 3, 1, 3], []] = 7 ∧
      ¬(cuentaPasadas 5 [4]
        [[1, 0, 0], [1, 0, 2, 2, 1], [1, 3, 0, 2, 3, 4],
          [2, 0, 0, 3, 1, 3], []] ≤ 5) := by
  refine ⟨by decide, by decide, by decide⟩

/-- C3, amended: for every validated automaton description the
propagation loop terminates — the table it returns is a fixed point, the
final pass making no new marks — and the total number of passes is at
most `state_count * (state_count - 1) / 2 + 1` (one per markable pair
plus the final silent pass).  The spec's `state_count`-pass bound fails
on ragged rows (see the counterexample). -/
theorem claim_C3 {estados : Nat} {finales : List Nat}
    {transiciones : List (List Nat)}
    (hv : EntradaValida estados finales transiciones) :
    pasadaAux transiciones (paresLista estados)
        (crear_tabla_distinguibilidad estados finales transiciones)
      = (crear_tabla_distinguibilidad estados finales transiciones,
         false) ∧
    cuentaPasadas estados finales transiciones
      ≤ estados * (estados - 1) / 2 + 1 :=
  crear_tabla_fixpoint estados finales transiciones

/-- Witness for C3 at Scenario A. -/
theorem claim_C3_witness :
    pasadaAux [[0, 1], [0, 1], [2, 2]] (paresLista 3)
        (crear_tabla_distinguibilidad 3 [2] [[0, 1], [0, 1], [2, 2]])
      = (crear_tabla_distinguibilidad 3 [2] [[0, 1], [0, 1], [2, 2]],
         false) ∧
    cuentaPasadas 3 [2] [[0, 1], [0, 1], [2, 2]]
      ≤ 3 * (3 - 1) / 2 + 1 :=
  claim_C3 (by decide)

/-- C4: `encontrar_pares_equivalentes` returns exactly the pairs
`(i, j)` with `i < j < estados` not marked in the table, in strictly
increasing lexicographic order, and the empty list when every such pair
is marked. -/
theorem claim_C4 (estados : Nat) (tabla : Tabla) :
    (encontrar_pares_equivalentes estados tabla).Pairwise lexLt ∧
    (∀ i j : Nat, (i, j) ∈ encontrar_pares_equivalentes estados tabla ↔
      i < j ∧ j < estados ∧ tget tabla i j = false) ∧
    ((∀ i j : Nat, i < j → j < estados → tget tabla i j = true) →
      encontrar_pares_equivalentes estados tabla = []) := by
  refine ⟨encontrar_sorted .., fun i j => encontrar_mem, ?_⟩
  intro hall
  rw [List.eq_nil_iff_forall_not_mem]
  rintro ⟨i, j⟩ hm
  obtain ⟨h1, h2, h3⟩ := encontrar_mem.1 hm
  rw [hall i j h1 h2] at h3
  exact Bool.noConfusion h3

/-- C5: the base case is never undone: under validation, every pair
`i < j` whose two states differ in finality is marked in the table
returned by `crear_tabla_distinguibilidad`. -/
theorem claim_C5 {estados : Nat} {finales : List Nat}
    {transiciones : List (List Nat)}
    (hv : EntradaValida estados finales transiciones) {i j : Nat}
    (hij : i < j) (hjn : j < estados)
    (hne : esFinal finales i ≠ esFinal finales j) :
    tget (crear_tabla_distinguibilidad estados finales transiciones) i j
      = true :=
  tget_crear_of_base (tget_tablaInicial.2 ⟨hij, hjn, hne⟩)

/-- Witness for C5 at Scenario A, pair (1, 2). -/
theorem claim_C5_witness :
    tget (crear_tabla_distinguibilidad 3 [2] [[0, 1], [0, 1], [2, 2]])
      1 2 = true :=
  claim_C5 (by decide) (by decide) (by decide) (by decide)

/-- C6: marks grow monotonically: a table entry that is `True` before a
propagation pass is still `True` after the pass, and after any number of
iterations of the propagation loop. -/
theorem claim_C6 (trans : List (List Nat)) (pares : List (Nat × Nat))
    (fuel : Nat) (t : Tabla) (i j : Nat) (h : tget t i j = true) :
    tget (pasadaAux trans pares t).1 i j = true ∧
    tget (buclePropagacion trans pares fuel t).1 i j = true :=
  ⟨tget_pasadaAux_mono h, tget_bucle_mono fuel h⟩

/-- Witness for C6: the base mark (0, 1) of a two-state automaton. -/
theorem claim_C6_witness :
    tget (pasadaAux [[0], [1]] (paresLista 2) (tablaInicial 2 [1])).1
        0 1 = true ∧
    tget (buclePropagacion [[0], [1]] (paresLista 2) 5
        (tablaInicial 2 [1])).1 0 1 = true :=
  claim_C6 [[0], [1]] (paresLista 2) 5 (tablaInicial 2 [1]) 0 1
    (by decide)

/-- C7: on Scenario A (3 states, final state 2, transitions
`[[0,1],[0,1],[2,2]]`) the pipeline yields exactly the equivalence pair
(0, 1). -/
theorem claim_C7 :
    encontrar_pares_equivalentes 3
        (crear_tabla_distinguibilidad 3 [2] [[0, 1], [0, 1], [2, 2]])
      = [(0, 1)] := by
  decide

/-- C8: ragged rows are tolerated, not rejected: any input passing the
four range/count checks passes `validar_entrada` (no equal-row-length
requirement exists), and the propagation scan over a pair of rows
consults exactly the symbol indices below the length of both rows. -/
theorem claim_C8 (estados : Int) (finales : List Int)
    (transiciones : List (List Int)) (t : Tabla) (fI fJ : List Nat)
    (h1 : 0 < estados) (h2 : ∀ e ∈ finales, 0 ≤ e ∧ e < estados)
    (h3 : (transiciones.length : Int) = estados)
    (h4 : ∀ fila ∈ transiciones, ∀ d ∈ fila, 0 ≤ d ∧ d < estados) :
    validar_entrada estados finales transiciones = true ∧
    (buscaSimbolo fJ t fI 0 = true ↔
      ∃ m : Nat, m < fI.length ∧ m < fJ.length ∧
        tget t (min (fI.getD m 0) (fJ.getD m 0))
          (max (fI.getD m 0) (fJ.getD m 0)) = true) := by
  constructor
  · exact (validar_entrada_true_iff ..).2 ⟨h1, h2, h3, h4⟩
  · rw [buscaSimbolo_iff fI 0]
    constructor
    · rintro ⟨m, p, q, hg1, hg2, h3'⟩
      rw [Nat.zero_add] at hg2
      have hm1 : m < fI.length := by
        by_contra hge
        rw [List.get?_eq_none.2 (by omega)] at hg1
        exact Option.noConfusion hg1
      have hm2 : m < fJ.length := by
        by_contra hge
        rw [List.get?_eq_none.2 (by omega)] at hg2
        exact Option.noConfusion hg2
      have hgp : fI.getD m 0 = p := by
        rw [get?_some_getD 0 hm1] at hg1
        exact Option.some.inj hg1
      have hgq : fJ.getD m 0 = q := by
        rw [get?_some_getD 0 hm2] at hg2
        exact Option.some.inj hg2
      refine ⟨m, hm1, hm2, ?_⟩
      rw [hgp, hgq]
      exact h3'
    · rintro ⟨m, hm1, hm2, h3'⟩
      exact ⟨m, fI.getD m 0, fJ.getD m 0, get?_some_getD 0 hm1,
        by rw [Nat.zero_add]; exact get?_some_getD 0 hm2, h3'⟩

/-- Witness for C8: a ragged two-state automaton is accepted, and the
scan characterization at a concrete ragged pair of rows. -/
theorem claim_C8_witness :
    validar_entrada 2 [] [[0], [0, 1]] = true ∧
    (buscaSimbolo [1] (tablaInicial 2 [1]) [0, 1] 0 = true ↔
      ∃ m : Nat, m < ([0, 1] : List Nat).length ∧
        m < ([1] : List Nat).length ∧
        tget (tablaInicial 2 [1])
          (min (([0, 1] : List Nat).getD m 0) (([1] : List Nat).getD m 0))
          (max (([0, 1] : List Nat).getD m 0) (([1] : List Nat).getD m 0))
          = true) :=
  claim_C8 2 [] [[0], [0, 1]] (tablaInicial 2 [1]) [0, 1] [1]
    (by decide) (by decide) (by decide) (by decide)

/-- C9: `True` entries only ever appear strictly above the diagonal: in
the freshly initialized table, after any propagation pass over pairs
`i < j`, and in the final table; consequently every diagonal entry is
`False`, so the propagation check on a swapped destination pair `(p, q)`
can never fire when both transitions lead to the same state. -/
theorem claim_C9 (estados : Nat) (finales : List Nat)
    (trans : List (List Nat)) (pares : List (Nat × Nat)) (t : Tabla)
    (hpares : ∀ ij ∈ pares, ij.1 < ij.2) (ht : TriSup t) :
    TriSup (tablaInicial estados finales) ∧
    TriSup (pasadaAux trans pares t).1 ∧
    TriSup (crear_tabla_distinguibilidad estados finales trans) ∧
    (∀ p : Nat, tget (pasadaAux trans pares t).1 p p = false) ∧
    (∀ p : Nat,
      tget (crear_tabla_distinguibilidad estados finales trans) p p
        = false) := by
  refine ⟨trisup_tablaInicial estados finales,
    trisup_pasadaAux hpares ht,
    trisup_crear_tabla estados finales trans, ?_, ?_⟩
  · exact trisup_diag (trisup_pasadaAux hpares ht)
  · exact trisup_diag (trisup_crear_tabla estados finales trans)

/-- Witness for C9 at Scenario A. -/
theorem claim_C9_witness :
    TriSup (tablaInicial 3 [2]) ∧
    TriSup (pasadaAux [[0, 1], [0, 1], [2, 2]] (paresLista 3)
      (tablaInicial 3 [2])).1 ∧
    TriSup (crear_tabla_distinguibilidad 3 [2]
      [[0, 1], [0, 1], [2, 2]]) ∧
    (∀ p : Nat, tget (pasadaAux [[0, 1], [0, 1], [2, 2]] (paresLista 3)
      (tablaInicial 3 [2])).1 p p = false) ∧
    (∀ p : Nat, tget (crear_tabla_distinguibilidad 3 [2]
      [[0, 1], [0, 1], [2, 2]]) p p = false) :=
  claim_C9 3 [2] [[0, 1], [0, 1], [2, 2]] (paresLista 3)
    (tablaInicial 3 [2]) (by decide) (trisup_tablaInicial 3 [2])

/-- C10: under the validation precondition, the checked embedding — in
which every Python list access returns `none` when out of range instead
of raising — returns `some` of the total embedding's results for both
`crear_tabla_distinguibilidad` and `encontrar_pares_equivalentes`: every
list access is in bounds and neither function raises. -/
theorem claim_C10 {estados : Nat} {finales : List Nat}
    {transiciones : List (List Nat)}
    (hv : EntradaValida estados finales transiciones) :
    crear_tablaE estados finales transiciones
        = some (crear_tabla_distinguibilidad estados finales
            transiciones) ∧
    encontrarE estados
        (crear_tabla_distinguibilidad estados finales transiciones)
      = some (encontrar_pares_equivalentes estados
          (crear_tabla_distinguibilidad estados finales transiciones)) :=
  ⟨crear_tablaE_eq hv, encontrarE_eq (forma_crear_tabla ..)⟩

/-- Witness for C10 at Scenario A. -/
theorem claim_C10_witness :
    crear_tablaE 3 [2] [[0, 1], [0, 1], [2, 2]]
        = some (crear_tabla_distinguibilidad 3 [2]
            [[0, 1], [0, 1], [2, 2]]) ∧
    encontrarE 3 (crear_tabla_distinguibilidad 3 [2]
        [[0, 1], [0, 1], [2, 2]])
      = some (encontrar_pares_equivalentes 3
          (crear_tabla_distinguibilidad 3 [2]
            [[0, 1], [0, 1], [2, 2]])) :=
  claim_C10 (by decide)

end Tarea1
